import Mathlib

/-!
# Verification of the twitter.py feature-extraction / model-selection core

Shallow embedding of `src/handout/code/src/twitter.py`:

* Strings are modelled as `List Char`; Python text files as `List (List Char)`
  (one entry per line).
* `extract_words` models the tokenizer: each punctuation character is replaced
  by ` c `, the string is lowercased and then split on runs of whitespace.
* `extract_dictionary` models the vocabulary builder: a Python dict
  `word -> index` is modelled as an association list (insertion ordered)
  together with the running index counter.
* `extract_feature_vectors` models bag-of-words extraction.  A Python dict
  lookup `word_list[word]` raises `KeyError` on a missing key; fallible
  lookups are therefore modelled with `Option`, and a raised exception
  surfaces as `none`.
* The sklearn metric functions called by `performance` are modelled by their
  documented behaviour: `accuracy_score` and `f1_score` (with the ill-defined
  cases falling back to 0, which rational division by zero gives for free),
  and `roc_auc_score`, which raises (returns `none`) when only one class is
  present in the true labels.
* The SVC classifier is external; it is modelled as an opaque pure training
  function `Trainer` mapping (train features, train labels, test features) to
  continuous predictions, exactly the `fit`/`decision_function` capability
  the core consumes.
* Floating point scores are modelled as exact rationals `ℚ`.
-/

/-- Python's `string.punctuation`: the 32 ASCII characters with codes
33–47, 58–64, 91–96 and 123–126, in ascending order. -/
def pythonPunct : List Char :=
  ((List.range 128).filter (fun n => decide ((33 ≤ n ∧ n ≤ 47) ∨ (58 ≤ n ∧ n ≤ 64) ∨
    (91 ≤ n ∧ n ≤ 96) ∨ (123 ≤ n ∧ n ≤ 126)))).map Char.ofNat

/-- Python `input_string.replace(c, ' ' + c + ' ')` for a single-character
pattern: every occurrence of `c` is replaced by space, `c`, space. -/
def replaceChar (c : Char) : List Char → List Char
  | [] => []
  | x :: xs =>
    if x = c then ' ' :: c :: ' ' :: replaceChar c xs else x :: replaceChar c xs

/-- The whitespace characters of Python `str.split()` (ASCII range):
space and the control characters 9–13 (tab, newline, vertical tab,
form feed, carriage return). -/
def isPySpace (c : Char) : Bool :=
  c == ' ' || decide (9 ≤ c.toNat ∧ c.toNat ≤ 13)

/-- Worker for `splitWs`: `acc` holds the (reversed) current word. -/
def splitWsAux : List Char → List Char → List (List Char)
  | [], acc => if acc.isEmpty then [] else [acc.reverse]
  | x :: xs, acc =>
    if isPySpace x then
      if acc.isEmpty then splitWsAux xs [] else acc.reverse :: splitWsAux xs []
    else splitWsAux xs (x :: acc)

/-- Python `str.split()` with no separator: split on runs of whitespace,
discarding empty fragments. -/
def splitWs (l : List Char) : List (List Char) := splitWsAux l []

/-- The loop `for c in punctuation: input_string = input_string.replace(c, ' ' + c + ' ')`. -/
def replaceAll (s : List Char) : List Char :=
  pythonPunct.foldl (fun acc c => replaceChar c acc) s

/-- `extract_words` from twitter.py: isolate punctuation, lowercase, split. -/
def extract_words (s : List Char) : List (List Char) :=
  splitWs ((replaceAll s).map Char.toLower)

/-- Lookup in the modelled Python dict (association list). `none` models a
`KeyError` being raised. -/
def dictFind : List (List Char × Nat) → List Char → Option Nat
  | [], _ => none
  | (k, v) :: rest, w => if k = w then some v else dictFind rest w

/-- One step of the `extract_dictionary` loop body: state is
`(word_list, index)`; `if word not in word_list: word_list[word] = index;
index += 1`. -/
def addWord (st : List (List Char × Nat) × Nat) (w : List Char) :
    List (List Char × Nat) × Nat :=
  if (dictFind st.1 w).isSome then st else (st.1 ++ [(w, st.2)], st.2 + 1)

/-- `extract_dictionary` from twitter.py, over the file's lines. -/
def extract_dictionary (lines : List (List Char)) : List (List Char × Nat) :=
  (lines.foldl (fun st line => (extract_words line).foldl addWord st) ([], 0)).1

/-- The per-line loop of `extract_feature_vectors`: starting from a zero row
of width `len(word_list)`, set cell `word_list[word]` to 1 for each word.
A missing word raises `KeyError`, modelled by `none`. -/
def vectorizeLine (word_list : List (List Char × Nat)) (line : List Char) :
    Option (List Nat) :=
  (extract_words line).foldlM
    (fun row w => (dictFind word_list w).map (fun i => row.set i 1))
    (List.replicate word_list.length 0)

/-- `extract_feature_vectors` from twitter.py: one row per line of the file. -/
def extract_feature_vectors (lines : List (List Char))
    (word_list : List (List Char × Nat)) : Option (List (List Nat)) :=
  lines.mapM (vectorizeLine word_list)

/-- `np.sign` on a scalar. -/
def npSign (x : ℚ) : Int :=
  if 0 < x then 1 else if x < 0 then -1 else 0

/-- The two lines `y_label = np.sign(y_pred); y_label[y_label==0] = 1`. -/
def binarize (y_pred : List ℚ) : List Int :=
  (y_pred.map npSign).map (fun v => if v = 0 then 1 else v)

/-- Model of `sklearn.metrics.accuracy_score`: fraction of positions where
prediction equals truth. -/
def accuracy_score (y_true y_label : List Int) : ℚ :=
  (((y_true.zip y_label).countP (fun p => p.1 == p.2) : ℚ)) / (y_true.length : ℚ)

/-- Model of `sklearn.metrics.f1_score` with positive class `1`: harmonic mean
of precision and recall; an ill-defined precision, recall or F1 (denominator
zero) is set to 0, which is exactly what rational division by zero yields. -/
def f1_score (y_true y_label : List Int) : ℚ :=
  let pairs := y_true.zip y_label
  let tp : ℚ := (pairs.countP (fun p => p.1 == 1 && p.2 == 1) : ℚ)
  let fp : ℚ := (pairs.countP (fun p => !(p.1 == 1) && p.2 == 1) : ℚ)
  let fnn : ℚ := (pairs.countP (fun p => p.1 == 1 && !(p.2 == 1)) : ℚ)
  let prec : ℚ := tp / (tp + fp)
  let recl : ℚ := tp / (tp + fnn)
  2 * prec * recl / (prec + recl)

/-- Model of `sklearn.metrics.roc_auc_score` for labels in `{+1, -1}`:
raises (`none`) when only one class is present in `y_true`; otherwise the
Mann-Whitney form of the area under the ROC curve, computed from the raw
continuous scores. -/
def roc_auc_score (y_true : List Int) (y_score : List ℚ) : Option ℚ :=
  let pairs := y_true.zip y_score
  let pos := (pairs.filter (fun p => p.1 == 1)).map Prod.snd
  let neg := (pairs.filter (fun p => !(p.1 == 1))).map Prod.snd
  if pos.length = 0 ∨ neg.length = 0 then none
  else some ((pos.map (fun p => (neg.map (fun n =>
      if n < p then (1 : ℚ) else if n = p then 1/2 else 0)).sum)).sum /
    ((pos.length : ℚ) * (neg.length : ℚ)))

/-- `performance` from twitter.py: binarize the continuous predictions, then
dispatch on the metric name; an unknown metric returns the sentinel `-1`.
`none` models an exception escaping (only `roc_auc_score` can raise). -/
def performance (y_true : List Int) (y_pred : List ℚ) (metric : String) :
    Option ℚ :=
  let y_label := binarize y_pred
  if metric = "accuracy" then some (accuracy_score y_true y_label)
  else if metric = "f1_score" then some (f1_score y_true y_label)
  else if metric = "auroc" then roc_auc_score y_true y_pred
  else some (-1)

/-- The external classifier capability: `fit` on the training slice followed
by `decision_function` on the test slice, modelled as one pure function from
(train features, train labels, test features) to continuous predictions. -/
def Trainer : Type :=
  List (List ℚ) → List Int → List (List ℚ) → List ℚ

/-- One iteration of the `cv_performance` loop: fit on `X[train], y[train]`,
predict on `X[test]`, and evaluate `performance` on the held-out labels. -/
def foldScore (clf : Trainer) (X : List (List ℚ)) (y : List Int)
    (metric : String) (fold : List Nat × List Nat) : Option ℚ :=
  performance (fold.2.map (fun i => y.getD i 0))
    (clf (fold.1.map (fun i => X.getD i []))
      (fold.1.map (fun i => y.getD i 0))
      (fold.2.map (fun i => X.getD i [])))
    metric

/-- `cv_performance` from twitter.py: collect the per-fold scores and return
`sum(accuracy_list)/float(len(accuracy_list))`.  An empty fold list is a
Python `ZeroDivisionError`, modelled by `none`. -/
def cv_performance (clf : Trainer) (X : List (List ℚ)) (y : List Int)
    (kf : List (List Nat × List Nat)) (metric : String) : Option ℚ :=
  (kf.mapM (foldScore clf X y metric)).bind
    (fun scores =>
      if scores.length = 0 then none
      else some (scores.sum / (scores.length : ℚ)))

/-- `C_range = 10.0 ** np.arange(-3, 3)`: the six candidate regularization
strengths 10⁻³ … 10². -/
def C_range : List ℚ := [1/1000, 1/100, 1/10, 1, 10, 100]

/-- `select_param_linear` from twitter.py: starting from
`max_score = -1; best_c = -1`, iterate over `C_range` in order, build a fresh
classifier for each candidate, and update `(max_score, best_c)` whenever
`cur_perf >= max_score`; return `best_c`.  A crash inside `cv_performance`
propagates (`none`). -/
def select_param_linear (X : List (List ℚ)) (y : List Int)
    (kf : List (List Nat × List Nat)) (metric : String)
    (mkClf : ℚ → Trainer) : Option ℚ :=
  (C_range.foldlM
    (fun (st : ℚ × ℚ) c =>
      (cv_performance (mkClf c) X y kf metric).map
        (fun cur => if st.1 ≤ cur then (cur, c) else st))
    ((-1 : ℚ), (-1 : ℚ))).map Prod.snd

/-- `performance_test` from twitter.py: predictions on the held-out set,
then `performance`. -/
def performance_test (clf : List (List ℚ) → List ℚ) (X : List (List ℚ))
    (y : List Int) (metric : String) : Option ℚ :=
  performance y (clf X) metric

/-- Spec-side characterization (for comparison with `extract_dictionary`):
the distinct tokens of a stream in order of first occurrence. -/
def firstSeenOrder (l : List (List Char)) : List (List Char) :=
  l.foldl (fun acc w => if w ∈ acc then acc else acc ++ [w]) []

/-- All tokens of a sequence of lines, in reading order. -/
def allTokens (lines : List (List Char)) : List (List Char) :=
  (lines.map extract_words).flatten

/-- Pointwise expansion of a character-to-segment map over a string; used to
factor the punctuation-replacement loop. -/
def expandWith (f : Char → List Char) : List Char → List Char
  | [] => []
  | x :: xs => f x ++ expandWith f xs

/-- The per-character effect of the tokenizer preprocessing (replace each
punctuation character by space-char-space, then lowercase everything). -/
def blockL (c : Char) : List Char :=
  if c ∈ pythonPunct then [' ', c, ' '] else [Char.toLower c]

/-- Structural reformulation of `List.mapM` over `Option`, convenient for
induction. -/
def mapO {α β : Type} (f : α → Option β) : List α → Option (List β)
  | [] => some []
  | a :: l => (f a).bind (fun b => (mapO f l).bind (fun bs => some (b :: bs)))

/-- The pure content of the `select_param_linear` loop: fold the
"update `(max_score, best_c)` when `cur >= max_score`" step over a candidate
list, given the score of each candidate. -/
def selFold (score : ℚ → ℚ) (init : ℚ × ℚ) (l : List ℚ) : ℚ × ℚ :=
  l.foldl (fun st c => if st.1 ≤ score c then (score c, c) else st) init

/-! ## Generic helper lemmas -/

theorem foldlM_vectorize_isSome (wl : List (List Char × Nat)) :
    ∀ (ws : List (List Char)) (row : List Nat),
      ((ws.foldlM (fun row w => (dictFind wl w).map (fun i => row.set i 1))
          row).isSome = true) ↔
        ∀ w ∈ ws, (dictFind wl w).isSome = true := by
  intro ws
  induction ws with
  | nil => intro row; simp
  | cons w ws ih =>
    intro row
    simp only [List.foldlM_cons]
    cases h : dictFind wl w with
    | none => simp [h]
    | some i =>
      simp [h, ih]

/-! ## C1: out-of-vocabulary tokens during vectorization -/

/-- C1 (counterexample): the claim says a token absent from the Vocabulary is
silently dropped and the row is still produced.  In the code the lookup
`word_list[word]` raises `KeyError`: vectorizing the line `"b"` against the
vocabulary built from `"a"` produces no feature matrix at all. -/
theorem oov_token_raises :
    extract_feature_vectors [['b']] (extract_dictionary [['a']]) = none ∧
      ¬ ∃ M, extract_feature_vectors [['b']] (extract_dictionary [['a']]) = some M := by
  constructor
  · decide
  · intro hM
    obtain ⟨M, hM⟩ := hM
    rw [show extract_feature_vectors [['b']] (extract_dictionary [['a']]) = none
      from by decide] at hM
    exact Option.noConfusion hM

/-- C1 (amended): a token absent from the Vocabulary is not ignored — the
lookup fails (a `KeyError`), so the row for a line is produced exactly when
every token of the line is present in the Vocabulary. -/
theorem vectorizeLine_isSome_iff (word_list : List (List Char × Nat))
    (line : List Char) :
    (vectorizeLine word_list line).isSome = true ↔
      ∀ w ∈ extract_words line, (dictFind word_list w).isSome = true := by
  unfold vectorizeLine
  exact foldlM_vectorize_isSome word_list (extract_words line) _

/-! ## C5: unknown metric returns the sentinel -1 -/

/-- C5: for every pair of label/prediction vectors, `performance` with a
metric name other than "accuracy", "f1_score", "auroc" returns the sentinel
`-1` (a value below every legitimate score, which is nonnegative) and does
not raise. -/
theorem performance_unknown_metric_sentinel (y_true : List Int)
    (y_pred : List ℚ) (metric : String)
    (h : metric ∉ (["accuracy", "f1_score", "auroc"] : List String)) :
    performance y_true y_pred metric = some (-1) ∧ (-1 : ℚ) < 0 := by
  simp only [List.mem_cons, List.not_mem_nil, or_false, not_or] at h
  obtain ⟨h1, h2, h3⟩ := h
  refine ⟨?_, by norm_num⟩
  simp [performance, h1, h2, h3]

/-- C5 witness at the concrete unsupported metric name "f1-score" (the typo
from the docstring): the sentinel is returned. -/
theorem performance_unknown_metric_sentinel_witness :
    performance [1] [1/2] "f1-score" = some (-1) ∧ (-1 : ℚ) < 0 :=
  performance_unknown_metric_sentinel [1] [1/2] "f1-score" (by decide)

/-! ## C4: sign binarization and per-metric inputs -/

/-- C4: the binarized label of each entry is the sign of that entry with 0
mapped to +1; "accuracy" and "f1_score" are computed from the binarized
labels and "auroc" from the raw continuous predictions. -/
theorem performance_sign_binarization (y_true : List Int) (y_pred : List ℚ) :
    binarize y_pred = y_pred.map (fun x => if 0 ≤ x then (1 : Int) else -1) ∧
    performance y_true y_pred "accuracy" =
      some (accuracy_score y_true (binarize y_pred)) ∧
    performance y_true y_pred "f1_score" =
      some (f1_score y_true (binarize y_pred)) ∧
    performance y_true y_pred "auroc" = roc_auc_score y_true y_pred := by
  refine ⟨?_, rfl, rfl, rfl⟩
  unfold binarize
  rw [List.map_map]
  refine List.map_congr_left ?_
  intro x _
  rcases lt_trichotomy x 0 with h | h | h
  · simp [npSign, Function.comp, h, h.not_lt, not_le.mpr h]
  · simp [npSign, Function.comp, h]
  · simp [npSign, Function.comp, h, h.le, h.ne.symm]

/-! ## C2: degenerate (single-class) folds -/

/-- C2 (counterexample): the claim says "auroc" on a fold whose true labels
contain only one class returns a deterministic fallback rather than crashing.
In the code `metrics.roc_auc_score` raises `ValueError` on such input
(modelled by `none`): with true labels `[1, 1]` no value is returned. -/
theorem auroc_single_class_crashes :
    performance [1, 1] [1/2, 1/3] "auroc" = none := by decide

/-- C2 (amended): on a non-empty single-class fold, "f1_score" never crashes
(its ill-defined precision/recall fall back to 0, and with an all-negative
fold the score is exactly 0), while "auroc" raises an error (returns no
score) instead of a fallback value. -/
theorem performance_degenerate_fold (y_true : List Int) (y_pred : List ℚ)
    (hsingle : (∀ l ∈ y_true, l = 1) ∨ (∀ l ∈ y_true, l = -1)) :
    performance y_true y_pred "auroc" = none ∧
    ((∀ l ∈ y_true, l = -1) → performance y_true y_pred "f1_score" = some 0) ∧
    (performance y_true y_pred "f1_score").isSome = true := by
  refine ⟨?_, ?_, rfl⟩
  · show roc_auc_score y_true y_pred = none
    unfold roc_auc_score
    rw [if_pos]
    rcases hsingle with hpos | hneg
    · right
      simp only [List.length_eq_zero, List.map_eq_nil_iff, List.filter_eq_nil_iff]
      intro p hp
      have := (List.of_mem_zip hp).1
      simp [hpos p.1 this]
    · left
      simp only [List.length_eq_zero, List.map_eq_nil_iff, List.filter_eq_nil_iff]
      intro p hp
      have := (List.of_mem_zip hp).1
      simp [hneg p.1 this]
  · intro hneg
    show some (f1_score y_true (binarize y_pred)) = some 0
    unfold f1_score
    have htp : (y_true.zip (binarize y_pred)).countP
        (fun p => p.1 == 1 && p.2 == 1) = 0 := by
      rw [List.countP_eq_zero]
      intro p hp
      have := (List.of_mem_zip hp).1
      simp [hneg p.1 this]
    simp only [htp, Nat.cast_zero]
    norm_num

/-- C2 witness: a concrete all-negative fold — "auroc" produces no score,
"f1_score" returns the fallback 0. -/
theorem performance_degenerate_fold_witness :
    performance [-1, -1] [1/2, -1/2] "auroc" = none ∧
    ((∀ l ∈ ([-1, -1] : List Int), l = -1) →
      performance [-1, -1] [1/2, -1/2] "f1_score" = some 0) ∧
    (performance [-1, -1] [1/2, -1/2] "f1_score").isSome = true :=
  performance_degenerate_fold [-1, -1] [1/2, -1/2] (Or.inr (by decide))

/-! ## C7: cross-validation averaging -/

theorem mapM_eq_mapO {α β : Type} (f : α → Option β) :
    ∀ l : List α, l.mapM f = mapO f l := by
  intro l
  induction l with
  | nil => rfl
  | cons a l ih => rw [List.mapM_cons, ih]; rfl

theorem mapO_some_length {α β : Type} (f : α → Option β) :
    ∀ (l : List α) (s : List β), mapO f l = some s → s.length = l.length := by
  intro l
  induction l with
  | nil => intro s hs; simp [mapO] at hs; simp [← hs]
  | cons a l ih =>
    intro s hs
    cases ha : f a with
    | none => simp [mapO, ha] at hs
    | some b =>
      cases hl : mapO f l with
      | none => simp [mapO, ha, hl] at hs
      | some bs =>
        simp only [mapO, ha, hl, Option.some_bind, Option.some_inj] at hs
        simp [← hs, ih bs hl]

theorem mapO_perm {α β : Type} (f : α → Option β) {l l' : List α}
    (h : l.Perm l') :
    (mapO f l = none ∧ mapO f l' = none) ∨
      ∃ s s', mapO f l = some s ∧ mapO f l' = some s' ∧ s.Perm s' := by
  induction h with
  | nil => exact Or.inr ⟨[], [], rfl, rfl, List.Perm.nil⟩
  | cons a hP ih =>
    cases ha : f a with
    | none => exact Or.inl ⟨by simp [mapO, ha], by simp [mapO, ha]⟩
    | some b =>
      rcases ih with ⟨h1, h2⟩ | ⟨s, s', h1, h2, hp⟩
      · exact Or.inl ⟨by simp [mapO, ha, h1], by simp [mapO, ha, h2]⟩
      · exact Or.inr ⟨b :: s, b :: s', by simp [mapO, ha, h1],
          by simp [mapO, ha, h2], hp.cons b⟩
  | swap a b l =>
    cases ha : f a with
    | none =>
      cases hb : f b with
      | none => exact Or.inl ⟨by simp [mapO, ha, hb], by simp [mapO, ha, hb]⟩
      | some yv => exact Or.inl ⟨by simp [mapO, ha, hb], by simp [mapO, ha, hb]⟩
    | some x =>
      cases hb : f b with
      | none => exact Or.inl ⟨by simp [mapO, ha, hb], by simp [mapO, ha, hb]⟩
      | some yv =>
        cases hl : mapO f l with
        | none => exact Or.inl ⟨by simp [mapO, ha, hb, hl], by simp [mapO, ha, hb, hl]⟩
        | some s =>
          exact Or.inr ⟨yv :: x :: s, x :: yv :: s, by simp [mapO, ha, hb, hl],
            by simp [mapO, ha, hb, hl], List.Perm.swap x yv s⟩
  | trans h1 h2 ih1 ih2 =>
    rcases ih1 with ⟨ha, hb⟩ | ⟨s, s', ha, hb, hp⟩
    · rcases ih2 with ⟨hc, hd⟩ | ⟨t, t', hc, hd, hq⟩
      · exact Or.inl ⟨ha, hd⟩
      · rw [hb] at hc; exact absurd hc (by simp)
    · rcases ih2 with ⟨hc, hd⟩ | ⟨t, t', hc, hd, hq⟩
      · rw [hb] at hc; exact absurd hc (by simp)
      · rw [hb] at hc
        refine Or.inr ⟨s, t', ha, hd, hp.trans ?_⟩
        rw [← Option.some_inj.mp hc] at hq
        exact hq

/-- C7: with a non-empty fold assignment whose per-fold scores all exist,
`cv_performance` is the arithmetic mean of the per-fold scores (sum divided
by the number of folds); k identical scores average to that score, and the
result is invariant under permuting the folds. -/
theorem cv_performance_mean_properties (clf : Trainer) (X : List (List ℚ))
    (y : List Int) (kf : List (List Nat × List Nat)) (metric : String)
    (scores : List ℚ) (hk : kf ≠ [])
    (hs : kf.mapM (foldScore clf X y metric) = some scores) :
    cv_performance clf X y kf metric =
      some (scores.sum / (scores.length : ℚ)) ∧
    scores.length = kf.length ∧
    (∀ s : ℚ, (∀ x ∈ scores, x = s) →
      cv_performance clf X y kf metric = some s) ∧
    (∀ kf', kf.Perm kf' →
      cv_performance clf X y kf' metric = cv_performance clf X y kf metric) := by
  have hsO : mapO (foldScore clf X y metric) kf = some scores := by
    rw [← mapM_eq_mapO]; exact hs
  have hlen : scores.length = kf.length := mapO_some_length _ kf scores hsO
  have hne : scores.length ≠ 0 := by
    rw [hlen]
    intro h0
    exact hk (List.length_eq_zero.mp h0)
  have hmain : cv_performance clf X y kf metric =
      some (scores.sum / (scores.length : ℚ)) := by
    unfold cv_performance
    rw [hs]
    simp only [Option.some_bind]
    rw [if_neg hne]
  refine ⟨hmain, hlen, ?_, ?_⟩
  · intro s hconst
    have hrep : scores = List.replicate scores.length s :=
      List.eq_replicate_of_mem hconst
    rw [hmain]
    congr 1
    rw [hrep]
    simp only [List.sum_replicate, List.length_replicate, nsmul_eq_mul]
    rw [mul_comm]
    exact mul_div_cancel_right₀ s (Nat.cast_ne_zero.mpr hne)
  · intro kf' hperm
    rcases mapO_perm (foldScore clf X y metric) hperm with
      ⟨h1, h2⟩ | ⟨s, s', h1, h2, hp⟩
    · rw [h1] at hsO; exact absurd hsO (by simp)
    · rw [h1] at hsO
      have hss : s = scores := Option.some_inj.mp hsO
      subst hss
      unfold cv_performance
      rw [mapM_eq_mapO, mapM_eq_mapO, h1, h2]
      simp only [Option.some_bind]
      rw [hp.length_eq, hp.sum_eq]

/-- C7 witness: a concrete 2-fold assignment with a constant classifier; the
average is the fold-score mean and is permutation invariant. -/
theorem cv_performance_mean_properties_witness :
    cv_performance (fun _ _ te => te.map (fun _ => (1 : ℚ))) [[1], [1]] [1, 1]
        [([0], [1]), ([1], [0])] "accuracy" =
      some ((([1, 1] : List ℚ).sum) / ((([1, 1] : List ℚ).length : Nat) : ℚ)) ∧
    ([1, 1] : List ℚ).length = ([([0], [1]), ([1], [0])] :
      List (List Nat × List Nat)).length ∧
    (∀ s : ℚ, (∀ x ∈ ([1, 1] : List ℚ), x = s) →
      cv_performance (fun _ _ te => te.map (fun _ => (1 : ℚ))) [[1], [1]] [1, 1]
        [([0], [1]), ([1], [0])] "accuracy" = some s) ∧
    (∀ kf', ([([0], [1]), ([1], [0])] : List (List Nat × List Nat)).Perm kf' →
      cv_performance (fun _ _ te => te.map (fun _ => (1 : ℚ))) [[1], [1]] [1, 1]
        kf' "accuracy" =
      cv_performance (fun _ _ te => te.map (fun _ => (1 : ℚ))) [[1], [1]] [1, 1]
        [([0], [1]), ([1], [0])] "accuracy") :=
  cv_performance_mean_properties (fun _ _ te => te.map (fun _ => (1 : ℚ)))
    [[1], [1]] [1, 1] [([0], [1]), ([1], [0])] "accuracy" [1, 1]
    (by decide) (by with_unfolding_all decide)

/-! ## C3 and C10: hyperparameter grid search -/

theorem select_foldlM_isSome (X : List (List ℚ)) (y : List Int)
    (kf : List (List Nat × List Nat)) (metric : String) (mkClf : ℚ → Trainer) :
    ∀ (l : List ℚ) (st : ℚ × ℚ) (r : ℚ × ℚ),
      (l.foldlM (fun (st : ℚ × ℚ) c =>
          (cv_performance (mkClf c) X y kf metric).map
            (fun cur => if st.1 ≤ cur then (cur, c) else st)) st) = some r →
      ∀ c ∈ l, (cv_performance (mkClf c) X y kf metric).isSome = true := by
  intro l
  induction l with
  | nil => intro st r _ c hc; exact absurd hc (List.not_mem_nil c)
  | cons a l ih =>
    intro st r hr c hc
    rw [List.foldlM_cons] at hr
    cases ha : cv_performance (mkClf a) X y kf metric with
    | none => rw [ha] at hr; simp at hr
    | some v =>
      rw [ha] at hr
      simp only [Option.map_some', Option.bind_eq_bind, Option.some_bind] at hr
      rcases List.mem_cons.mp hc with hca | hcl
      · rw [hca, ha]; rfl
      · exact ih _ r hr c hcl

theorem select_foldlM_eq (X : List (List ℚ)) (y : List Int)
    (kf : List (List Nat × List Nat)) (metric : String) (mkClf : ℚ → Trainer)
    (l : List ℚ)
    (h : ∀ c ∈ l, (cv_performance (mkClf c) X y kf metric).isSome = true) :
    ∀ st : ℚ × ℚ,
      (l.foldlM (fun (st : ℚ × ℚ) c =>
          (cv_performance (mkClf c) X y kf metric).map
            (fun cur => if st.1 ≤ cur then (cur, c) else st)) st) =
        some (selFold (fun c => (cv_performance (mkClf c) X y kf metric).getD 0)
          st l) := by
  induction l with
  | nil => intro st; rfl
  | cons c l ih =>
    intro st
    rw [List.foldlM_cons]
    obtain ⟨v, hv⟩ := Option.isSome_iff_exists.mp (h c (List.mem_cons_self c l))
    rw [hv]
    simp only [Option.map_some', Option.bind_eq_bind, Option.some_bind]
    rw [ih (fun x hx => h x (List.mem_cons_of_mem c hx))]
    simp only [selFold, List.foldl_cons, hv, Option.getD_some]

theorem selFold_argmax (score : ℚ → ℚ) (l : List ℚ) :
    ∀ m0 b0 : ℚ, l ≠ [] → (∀ c ∈ l, m0 ≤ score c) →
      ∃ l1 l2,
        l = l1 ++ (selFold score (m0, b0) l).2 :: l2 ∧
        (selFold score (m0, b0) l).1 = score (selFold score (m0, b0) l).2 ∧
        (∀ x ∈ l2, score x < (selFold score (m0, b0) l).1) ∧
        (∀ x ∈ l, score x ≤ (selFold score (m0, b0) l).1) := by
  induction l using List.reverseRecOn with
  | nil => intro m0 b0 h _; exact absurd rfl h
  | append_singleton l c ih =>
    intro m0 b0 _ hge
    have hstep : selFold score (m0, b0) (l ++ [c]) =
        (if (selFold score (m0, b0) l).1 ≤ score c
          then (score c, c) else selFold score (m0, b0) l) := by
      simp [selFold, List.foldl_append]
    rcases eq_or_ne l [] with hl | hl
    · subst hl
      have h0 : m0 ≤ score c := hge c (by simp)
      refine ⟨[], [], ?_, ?_, ?_, ?_⟩ <;>
        simp [selFold, h0]
    · obtain ⟨l1, l2, hdec, hsc, hlt, hmax⟩ :=
        ih m0 b0 hl (fun x hx => hge x (List.mem_append_left [c] hx))
      by_cases hc : (selFold score (m0, b0) l).1 ≤ score c
      · rw [hstep, if_pos hc]
        refine ⟨l, [], by simp, rfl, by simp, ?_⟩
        intro x hx
        rcases List.mem_append.mp hx with hx | hx
        · exact le_trans (hmax x hx) hc
        · simp only [List.mem_singleton] at hx
          rw [hx]
      · rw [hstep, if_neg hc]
        push_neg at hc
        refine ⟨l1, l2 ++ [c], ?_, hsc, ?_, ?_⟩
        · conv_lhs => rw [hdec]
          simp
        · intro x hx
          rcases List.mem_append.mp hx with hx | hx
          · exact hlt x hx
          · simp only [List.mem_singleton] at hx
            rw [hx]; exact hc
        · intro x hx
          rcases List.mem_append.mp hx with hx | hx
          · exact hmax x hx
          · simp only [List.mem_singleton] at hx
            rw [hx]; exact le_of_lt hc

theorem performance_not_supported (y_true : List Int) (y_pred : List ℚ)
    (metric : String) (h1 : metric ≠ "accuracy") (h2 : metric ≠ "f1_score")
    (h3 : metric ≠ "auroc") :
    performance y_true y_pred metric = some (-1) := by
  simp [performance, h1, h2, h3]

theorem performance_ge_neg_one (y_true : List Int) (y_pred : List ℚ)
    (metric : String) (q : ℚ) (h : performance y_true y_pred metric = some q) :
    -1 ≤ q := by
  unfold performance at h
  by_cases h1 : metric = "accuracy"
  · rw [if_pos h1] at h
    rw [← Option.some_inj.mp h]
    have h0 : (0 : ℚ) ≤ accuracy_score y_true (binarize y_pred) := by
      simp only [accuracy_score]
      positivity
    linarith
  · rw [if_neg h1] at h
    by_cases h2 : metric = "f1_score"
    · rw [if_pos h2] at h
      rw [← Option.some_inj.mp h]
      have h0 : (0 : ℚ) ≤ f1_score y_true (binarize y_pred) := by
        simp only [f1_score]
        positivity
      linarith
    · rw [if_neg h2] at h
      by_cases h3 : metric = "auroc"
      · rw [if_pos h3] at h
        simp only [roc_auc_score] at h
        split at h
        · exact absurd h (by simp)
        · rw [← Option.some_inj.mp h]
          refine le_trans (by norm_num) (div_nonneg ?_ ?_)
          · refine List.sum_nonneg ?_
            intro x hx
            obtain ⟨p, _, rfl⟩ := List.mem_map.mp hx
            refine List.sum_nonneg ?_
            intro z hz
            obtain ⟨n, _, rfl⟩ := List.mem_map.mp hz
            split_ifs <;> norm_num
          · positivity
      · rw [if_neg h3] at h
        rw [← Option.some_inj.mp h]

theorem mapO_forall_mem {α β : Type} (f : α → Option β) (P : β → Prop)
    (hf : ∀ a b, f a = some b → P b) :
    ∀ (l : List α) (s : List β), mapO f l = some s → ∀ x ∈ s, P x := by
  intro l
  induction l with
  | nil =>
    intro s hs x hx
    simp [mapO] at hs
    subst hs
    exact absurd hx (List.not_mem_nil x)
  | cons a l ih =>
    intro s hs x hx
    cases ha : f a with
    | none => rw [mapO, ha] at hs; simp at hs
    | some b =>
      cases hl : mapO f l with
      | none => rw [mapO, ha, hl] at hs; simp at hs
      | some bs =>
        rw [mapO, ha, hl] at hs
        simp only [Option.some_bind, Option.some_inj] at hs
        rw [← hs] at hx
        rcases List.mem_cons.mp hx with hxa | hxl
        · rw [hxa]; exact hf a b ha
        · exact ih bs hl x hxl

theorem mapO_const {α β : Type} (f : α → Option β) (b : β)
    (hf : ∀ a, f a = some b) :
    ∀ l : List α, mapO f l = some (List.replicate l.length b) := by
  intro l
  induction l with
  | nil => rfl
  | cons a l ih => simp [mapO, hf a, ih, List.replicate_succ]

theorem list_sum_ge_neg_length :
    ∀ s : List ℚ, (∀ x ∈ s, -1 ≤ x) → -(s.length : ℚ) ≤ s.sum := by
  intro s
  induction s with
  | nil => intro _; norm_num
  | cons x s ih =>
    intro h
    have hx : -1 ≤ x := h x (List.mem_cons_self x s)
    have hs : -(s.length : ℚ) ≤ s.sum := ih (fun z hz => h z (List.mem_cons_of_mem x hz))
    simp only [List.sum_cons, List.length_cons]
    push_cast
    linarith

theorem cv_performance_ge_neg_one (clf : Trainer) (X : List (List ℚ))
    (y : List Int) (kf : List (List Nat × List Nat)) (metric : String) (q : ℚ)
    (h : cv_performance clf X y kf metric = some q) : -1 ≤ q := by
  unfold cv_performance at h
  rw [mapM_eq_mapO] at h
  cases hm : mapO (foldScore clf X y metric) kf with
  | none => rw [hm] at h; exact absurd h (by simp)
  | some scores =>
    rw [hm] at h
    simp only [Option.some_bind] at h
    by_cases hlen : scores.length = 0
    · rw [if_pos hlen] at h; exact absurd h (by simp)
    · rw [if_neg hlen] at h
      rw [← Option.some_inj.mp h]
      have hall : ∀ x ∈ scores, -1 ≤ x := by
        refine mapO_forall_mem (foldScore clf X y metric) (fun z => -1 ≤ z)
          ?_ kf scores hm
        intro fold b hb
        exact performance_ge_neg_one _ _ _ _ hb
      have hpos : (0 : ℚ) < (scores.length : ℚ) :=
        Nat.cast_pos.mpr (Nat.pos_of_ne_zero hlen)
      rw [le_div_iff₀ hpos]
      have := list_sum_ge_neg_length scores hall
      linarith

theorem select_param_spec (X : List (List ℚ)) (y : List Int)
    (kf : List (List Nat × List Nat)) (metric : String) (mkClf : ℚ → Trainer)
    (score : ℚ → ℚ)
    (hsc : ∀ c ∈ C_range,
      cv_performance (mkClf c) X y kf metric = some (score c))
    (hge : ∀ c ∈ C_range, -1 ≤ score c) :
    ∃ cstar, select_param_linear X y kf metric mkClf = some cstar ∧
      cstar ∈ C_range ∧
      (∀ c ∈ C_range, score c ≤ score cstar) ∧
      (∀ c ∈ C_range, score c = score cstar → c ≤ cstar) ∧
      ((∀ c ∈ C_range, ∀ d ∈ C_range, c < d → score c < score d) →
        cstar = 100) := by
  have hall : ∀ c ∈ C_range,
      (cv_performance (mkClf c) X y kf metric).isSome = true := by
    intro c hc; rw [hsc c hc]; rfl
  have hkey := select_foldlM_eq X y kf metric mkClf C_range hall
    ((-1 : ℚ), (-1 : ℚ))
  have hagree : ∀ c ∈ C_range,
      (cv_performance (mkClf c) X y kf metric).getD 0 = score c := by
    intro c hc; rw [hsc c hc]; rfl
  have hge' : ∀ c ∈ C_range, (-1 : ℚ) ≤
      (cv_performance (mkClf c) X y kf metric).getD 0 := by
    intro c hc; rw [hagree c hc]; exact hge c hc
  obtain ⟨l1, l2, hdec, hsc', hlt, hmax⟩ :=
    selFold_argmax (fun c => (cv_performance (mkClf c) X y kf metric).getD 0)
      C_range (-1) (-1) (by unfold C_range; exact List.cons_ne_nil _ _) hge'
  set r := selFold (fun c => (cv_performance (mkClf c) X y kf metric).getD 0)
    ((-1 : ℚ), (-1 : ℚ)) C_range with hr
  have hmem : r.2 ∈ C_range := by
    rw [hdec]
    exact List.mem_append_right l1 (List.mem_cons_self _ _)
  have hstar : (cv_performance (mkClf r.2) X y kf metric).getD 0 = score r.2 :=
    hagree r.2 hmem
  refine ⟨r.2, ?_, hmem, ?_, ?_, ?_⟩
  · unfold select_param_linear
    rw [hkey]
    rfl
  · intro c hc
    rw [← hagree c hc, ← hstar, ← hsc']
    exact hmax c hc
  · intro c hc heq
    have hmemdec : c ∈ l1 ++ r.2 :: l2 := by rw [← hdec]; exact hc
    rcases List.mem_append.mp hmemdec with hc1 | hc2
    · have hsorted : List.Pairwise (· < ·) C_range := by
        unfold C_range
        with_unfolding_all decide
      rw [hdec] at hsorted
      obtain ⟨-, -, hrel⟩ := List.pairwise_append.mp hsorted
      exact le_of_lt (hrel c hc1 r.2 (List.mem_cons_self _ _))
    · rcases List.mem_cons.mp hc2 with hceq | hc2
      · rw [hceq]
      · exfalso
        have h1 := hlt c hc2
        rw [hagree c hc, hsc', hstar, heq] at h1
        exact lt_irrefl _ h1
  · intro hmono
    by_contra hne
    have h100 : (100 : ℚ) ∈ C_range := by norm_num [C_range]
    have hle : ∀ x ∈ C_range, x ≤ (100 : ℚ) := by
      intro x hx
      unfold C_range at hx
      simp only [List.mem_cons, List.not_mem_nil, or_false] at hx
      rcases hx with h | h | h | h | h | h <;> subst h <;> norm_num
    have hlt100 : r.2 < 100 := lt_of_le_of_ne (hle r.2 hmem) hne
    have hstrict := hmono r.2 hmem 100 h100 hlt100
    have hmax100 : score 100 ≤ score r.2 := by
      rw [← hagree 100 h100, ← hstar, ← hsc']
      exact hmax 100 h100
    linarith

theorem hundred_mem_C_range : (100 : ℚ) ∈ C_range := by norm_num [C_range]

theorem neg_one_not_mem_C_range : (-1 : ℚ) ∉ C_range := by norm_num [C_range]

theorem C_range_le_hundred : ∀ x ∈ C_range, x ≤ (100 : ℚ) := by
  intro x hx
  unfold C_range at hx
  simp only [List.mem_cons, List.not_mem_nil, or_false] at hx
  rcases hx with h | h | h | h | h | h <;> subst h <;> norm_num

/-- C3: the grid is exactly 10⁻³ … 10² in ascending order; the selected
candidate maximizes the cross-validated score with exact ties resolved in
favor of the later (larger) candidate (the update fires on `>=`), and for
strictly increasing scores the selection is 100.0. -/
theorem select_param_linear_grid_argmax (X : List (List ℚ)) (y : List Int)
    (kf : List (List Nat × List Nat)) (metric : String) (mkClf : ℚ → Trainer)
    (score : ℚ → ℚ)
    (hsc : ∀ c ∈ C_range,
      cv_performance (mkClf c) X y kf metric = some (score c))
    (hge : ∀ c ∈ C_range, -1 ≤ score c) :
    C_range = [(10 : ℚ) ^ (-3 : ℤ), (10 : ℚ) ^ (-2 : ℤ), (10 : ℚ) ^ (-1 : ℤ),
      (10 : ℚ) ^ (0 : ℤ), (10 : ℚ) ^ (1 : ℤ), (10 : ℚ) ^ (2 : ℤ)] ∧
    List.Pairwise (· < ·) C_range ∧
    ∃ cstar, select_param_linear X y kf metric mkClf = some cstar ∧
      cstar ∈ C_range ∧
      (∀ c ∈ C_range, score c ≤ score cstar) ∧
      (∀ c ∈ C_range, score c = score cstar → c ≤ cstar) ∧
      ((∀ c ∈ C_range, ∀ d ∈ C_range, c < d → score c < score d) →
        cstar = 100) := by
  refine ⟨by norm_num [C_range], ?_, ?_⟩
  · unfold C_range
    with_unfolding_all decide
  · exact select_param_spec X y kf metric mkClf score hsc hge

/-- C3 witness: a constant-prediction classifier family on a one-example
dataset; every candidate scores 1 under "accuracy" and the theorem applies. -/
theorem select_param_linear_grid_argmax_witness :
    C_range = [(10 : ℚ) ^ (-3 : ℤ), (10 : ℚ) ^ (-2 : ℤ), (10 : ℚ) ^ (-1 : ℤ),
      (10 : ℚ) ^ (0 : ℤ), (10 : ℚ) ^ (1 : ℤ), (10 : ℚ) ^ (2 : ℤ)] ∧
    List.Pairwise (· < ·) C_range ∧
    ∃ cstar, select_param_linear [[1]] [1] [([0], [0])] "accuracy"
        (fun c => fun _ _ te => te.map (fun _ => c)) = some cstar ∧
      cstar ∈ C_range ∧
      (∀ c ∈ C_range, (fun _ => (1 : ℚ)) c ≤ (fun _ => (1 : ℚ)) cstar) ∧
      (∀ c ∈ C_range, (fun _ => (1 : ℚ)) c = (fun _ => (1 : ℚ)) cstar →
        c ≤ cstar) ∧
      ((∀ c ∈ C_range, ∀ d ∈ C_range, c < d →
          (fun _ => (1 : ℚ)) c < (fun _ => (1 : ℚ)) d) → cstar = 100) :=
  select_param_linear_grid_argmax [[1]] [1] [([0], [0])] "accuracy"
    (fun c => fun _ _ te => te.map (fun _ => c)) (fun _ => (1 : ℚ))
    (by with_unfolding_all decide) (by with_unfolding_all decide)

/-- C10: whenever `select_param_linear` returns a value it is a member of
the candidate grid and never the initialization value `best_c = -1` (every
per-fold score, including the sentinel `-1`, is `>= -1` and the update uses
`>=`); in particular with an unsupported metric every candidate's average
score is exactly `-1` and the last, largest candidate `100.0` is returned. -/
theorem select_param_linear_never_initial (X : List (List ℚ)) (y : List Int)
    (kf : List (List Nat × List Nat)) (metric : String) (mkClf : ℚ → Trainer)
    (hm : metric ∉ (["accuracy", "f1_score", "auroc"] : List String))
    (hk : kf ≠ []) :
    (∀ clf : Trainer, cv_performance clf X y kf metric = some (-1)) ∧
    select_param_linear X y kf metric mkClf = some 100 ∧
    (100 : ℚ) ∈ C_range ∧ (-1 : ℚ) ∉ C_range ∧
    (∀ (X' : List (List ℚ)) (y' : List Int) (kf' : List (List Nat × List Nat))
        (metric' : String) (mk' : ℚ → Trainer) (c : ℚ),
      select_param_linear X' y' kf' metric' mk' = some c →
        c ∈ C_range ∧ c ≠ -1) := by
  simp only [List.mem_cons, List.not_mem_nil, or_false, not_or] at hm
  obtain ⟨h1, h2, h3⟩ := hm
  have hk0 : kf.length ≠ 0 := fun h0 => hk (List.length_eq_zero.mp h0)
  have hcast : (kf.length : ℚ) ≠ 0 := Nat.cast_ne_zero.mpr hk0
  have hcv : ∀ clf : Trainer, cv_performance clf X y kf metric = some (-1) := by
    intro clf
    unfold cv_performance
    rw [mapM_eq_mapO,
      mapO_const (foldScore clf X y metric) (-1)
        (fun fold => performance_not_supported _ _ _ h1 h2 h3) kf]
    simp only [Option.some_bind, List.length_replicate]
    rw [if_neg hk0]
    congr 1
    rw [List.sum_replicate, nsmul_eq_mul, mul_comm]
    exact mul_div_cancel_right₀ (-1) hcast
  refine ⟨hcv, ?_, hundred_mem_C_range, neg_one_not_mem_C_range, ?_⟩
  · obtain ⟨cstar, hsel, hmem, hmax, htie, -⟩ :=
      select_param_spec X y kf metric mkClf (fun _ => -1)
        (fun c _ => hcv (mkClf c)) (fun c _ => le_refl _)
    have h100le : (100 : ℚ) ≤ cstar := htie 100 hundred_mem_C_range rfl
    have hstar100 : cstar = 100 :=
      le_antisymm (C_range_le_hundred cstar hmem) h100le
    rw [hsel, hstar100]
  · intro X' y' kf' metric' mk' c hselc
    cases hfold : (C_range.foldlM
        (fun (st : ℚ × ℚ) cc =>
          (cv_performance (mk' cc) X' y' kf' metric').map
            (fun cur => if st.1 ≤ cur then (cur, cc) else st))
        ((-1 : ℚ), (-1 : ℚ))) with
    | none =>
      exfalso
      unfold select_param_linear at hselc
      rw [hfold] at hselc
      exact absurd hselc (by simp)
    | some r =>
      have hall := select_foldlM_isSome X' y' kf' metric' mk' C_range
        ((-1 : ℚ), (-1 : ℚ)) r hfold
      have hsc' : ∀ cc ∈ C_range, cv_performance (mk' cc) X' y' kf' metric' =
          some ((cv_performance (mk' cc) X' y' kf' metric').getD 0) := by
        intro cc hcc
        obtain ⟨v, hv⟩ := Option.isSome_iff_exists.mp (hall cc hcc)
        rw [hv]; rfl
      have hge' : ∀ cc ∈ C_range,
          (-1 : ℚ) ≤ (cv_performance (mk' cc) X' y' kf' metric').getD 0 := by
        intro cc hcc
        obtain ⟨v, hv⟩ := Option.isSome_iff_exists.mp (hall cc hcc)
        rw [hv, Option.getD_some]
        exact cv_performance_ge_neg_one _ _ _ _ _ v hv
      obtain ⟨cstar, hsel2, hmem2, -, -, -⟩ :=
        select_param_spec X' y' kf' metric' mk' _ hsc' hge'
      have hceq : c = cstar := by
        rw [hsel2] at hselc
        exact (Option.some_inj.mp hselc).symm
      subst hceq
      exact ⟨hmem2, fun heq => neg_one_not_mem_C_range (heq ▸ hmem2)⟩

/-- C10 witness: with the unsupported metric name "foo" and one (degenerate)
fold, every candidate averages exactly -1 and the selector returns 100. -/
theorem select_param_linear_never_initial_witness :
    (∀ clf : Trainer,
      cv_performance clf [[1]] [1] [([], [])] "foo" = some (-1)) ∧
    select_param_linear [[1]] [1] [([], [])] "foo"
      (fun _ => fun _ _ te => te.map (fun _ => 0)) = some 100 ∧
    (100 : ℚ) ∈ C_range ∧ (-1 : ℚ) ∉ C_range ∧
    (∀ (X' : List (List ℚ)) (y' : List Int) (kf' : List (List Nat × List Nat))
        (metric' : String) (mk' : ℚ → Trainer) (c : ℚ),
      select_param_linear X' y' kf' metric' mk' = some c →
        c ∈ C_range ∧ c ≠ -1) :=
  select_param_linear_never_initial [[1]] [1] [([], [])] "foo"
    (fun _ => fun _ _ te => te.map (fun _ => 0)) (by decide) (by decide)

/-! ## C8: vocabulary builder invariants -/

theorem dictFind_isSome_iff (wl : List (List Char × Nat)) (w : List Char) :
    (dictFind wl w).isSome = true ↔ w ∈ wl.map Prod.fst := by
  induction wl with
  | nil => simp [dictFind]
  | cons kv rest ih =>
    obtain ⟨k, v⟩ := kv
    by_cases hk : k = w
    · subst hk
      simp [dictFind]
    · simp only [dictFind, List.map_cons, List.mem_cons]
      rw [if_neg hk, ih]
      constructor
      · exact Or.inr
      · rintro (h | h)
        · exact absurd h.symm hk
        · exact h

theorem foldl_addWord_inv :
    ∀ (ws : List (List Char)) (st : List (List Char × Nat) × Nat),
      st.2 = st.1.length → st.1.map Prod.snd = List.range st.1.length →
      (ws.foldl addWord st).2 = (ws.foldl addWord st).1.length ∧
        (ws.foldl addWord st).1.map Prod.snd =
          List.range (ws.foldl addWord st).1.length := by
  intro ws
  induction ws with
  | nil => intro st h1 h2; exact ⟨h1, h2⟩
  | cons w ws ih =>
    intro st h1 h2
    rw [List.foldl_cons]
    refine ih (addWord st w) ?_ ?_
    · unfold addWord
      by_cases hw : (dictFind st.1 w).isSome = true
      · rw [if_pos hw]; exact h1
      · rw [if_neg hw]; simp [h1]
    · unfold addWord
      by_cases hw : (dictFind st.1 w).isSome = true
      · rw [if_pos hw]; exact h2
      · rw [if_neg hw]
        simp only [List.map_append, List.length_append, List.map_cons,
          List.map_nil, List.length_cons, List.length_nil]
        rw [h2, h1]
        rw [List.range_succ]

theorem foldl_addWord_keys :
    ∀ (ws : List (List Char)) (st : List (List Char × Nat) × Nat),
      (ws.foldl addWord st).1.map Prod.fst =
        ws.foldl (fun acc w => if w ∈ acc then acc else acc ++ [w])
          (st.1.map Prod.fst) := by
  intro ws
  induction ws with
  | nil => intro st; rfl
  | cons w ws ih =>
    intro st
    rw [List.foldl_cons, List.foldl_cons, ih]
    congr 1
    unfold addWord
    by_cases hw : (dictFind st.1 w).isSome = true
    · rw [if_pos hw, if_pos ((dictFind_isSome_iff st.1 w).mp hw)]
    · rw [if_neg hw, if_neg (fun hmem => hw ((dictFind_isSome_iff st.1 w).mpr hmem))]
      simp

theorem foldl_addWord_extends :
    ∀ (ws : List (List Char)) (st : List (List Char × Nat) × Nat),
      ∃ t, (ws.foldl addWord st).1 = st.1 ++ t := by
  intro ws
  induction ws with
  | nil => intro st; exact ⟨[], by simp⟩
  | cons w ws ih =>
    intro st
    obtain ⟨t, ht⟩ := ih (addWord st w)
    rw [List.foldl_cons, ht]
    unfold addWord
    by_cases hw : (dictFind st.1 w).isSome = true
    · rw [if_pos hw]; exact ⟨t, rfl⟩
    · rw [if_neg hw]; exact ⟨(w, st.2) :: t, by simp⟩

theorem allTokens_cons (line : List Char) (lines : List (List Char)) :
    allTokens (line :: lines) = extract_words line ++ allTokens lines := by
  unfold allTokens
  rw [List.map_cons, List.flatten_cons]

theorem allTokens_append (l1 l2 : List (List Char)) :
    allTokens (l1 ++ l2) = allTokens l1 ++ allTokens l2 := by
  unfold allTokens
  rw [List.map_append, List.flatten_append]

theorem extract_dictionary_eq_foldAll :
    ∀ (lines : List (List Char)) (st : List (List Char × Nat) × Nat),
      lines.foldl (fun st line => (extract_words line).foldl addWord st) st =
        (allTokens lines).foldl addWord st := by
  intro lines
  induction lines with
  | nil =>
    intro st
    show st = (allTokens []).foldl addWord st
    rw [show allTokens [] = [] from rfl]
    rfl
  | cons line lines ih =>
    intro st
    rw [List.foldl_cons, ih, allTokens_cons, List.foldl_append]

theorem firstSeen_fold_mem :
    ∀ (l acc : List (List Char)) (x : List Char),
      (x ∈ l.foldl (fun acc w => if w ∈ acc then acc else acc ++ [w]) acc) ↔
        x ∈ acc ∨ x ∈ l := by
  intro l
  induction l with
  | nil => intro acc x; simp
  | cons w l ih =>
    intro acc x
    rw [List.foldl_cons, ih]
    by_cases hw : w ∈ acc
    · rw [if_pos hw]
      simp only [List.mem_cons]
      constructor
      · rintro (h | h)
        · exact Or.inl h
        · exact Or.inr (Or.inr h)
      · rintro (h | h | h)
        · exact Or.inl h
        · exact Or.inl (by rw [h]; exact hw)
        · exact Or.inr h
    · rw [if_neg hw]
      simp only [List.mem_append, List.mem_cons, List.not_mem_nil, or_false]
      constructor
      · rintro ((h | h) | h)
        · exact Or.inl h
        · exact Or.inr (Or.inl h)
        · exact Or.inr (Or.inr h)
      · rintro (h | h | h)
        · exact Or.inl (Or.inl h)
        · exact Or.inl (Or.inr h)
        · exact Or.inr h

theorem firstSeen_fold_nodup :
    ∀ (l acc : List (List Char)), acc.Nodup →
      (l.foldl (fun acc w => if w ∈ acc then acc else acc ++ [w]) acc).Nodup := by
  intro l
  induction l with
  | nil => intro acc h; exact h
  | cons w l ih =>
    intro acc h
    rw [List.foldl_cons]
    by_cases hw : w ∈ acc
    · rw [if_pos hw]; exact ih acc h
    · rw [if_neg hw]
      refine ih (acc ++ [w]) ?_
      rw [List.nodup_append]
      refine ⟨h, List.nodup_singleton w, ?_⟩
      intro x hx hxw
      rw [List.mem_singleton] at hxw
      rw [hxw] at hx
      exact hw hx

/-- C8: the dictionary built by `extract_dictionary` has one entry per
distinct token; its indices are exactly `0, 1, …, size-1` in insertion
order; its keys are the distinct tokens in first-seen order with no key
duplicated; and processing further lines only appends entries (no index is
reused or reassigned). -/
theorem extract_dictionary_invariants (lines more : List (List Char)) :
    (extract_dictionary lines).length = (allTokens lines).toFinset.card ∧
    (extract_dictionary lines).map Prod.snd =
      List.range (extract_dictionary lines).length ∧
    ((extract_dictionary lines).map Prod.fst).Nodup ∧
    (extract_dictionary lines).map Prod.fst = firstSeenOrder (allTokens lines) ∧
    ∃ t, extract_dictionary (lines ++ more) = extract_dictionary lines ++ t := by
  have hfold : ∀ L : List (List Char),
      extract_dictionary L = ((allTokens L).foldl addWord ([], 0)).1 := by
    intro L
    unfold extract_dictionary
    rw [extract_dictionary_eq_foldAll]
  have hkeys : (extract_dictionary lines).map Prod.fst =
      firstSeenOrder (allTokens lines) := by
    rw [hfold, foldl_addWord_keys]
    rfl
  have hnodup : ((extract_dictionary lines).map Prod.fst).Nodup := by
    rw [hkeys]
    exact firstSeen_fold_nodup (allTokens lines) [] List.nodup_nil
  have hinv := foldl_addWord_inv (allTokens lines) ([], 0) rfl rfl
  refine ⟨?_, ?_, hnodup, hkeys, ?_⟩
  · have hsetEq : (firstSeenOrder (allTokens lines)).toFinset =
        (allTokens lines).toFinset := by
      ext x
      simp only [List.mem_toFinset]
      rw [show firstSeenOrder (allTokens lines) =
        (allTokens lines).foldl
          (fun acc w => if w ∈ acc then acc else acc ++ [w]) [] from rfl]
      rw [firstSeen_fold_mem]
      simp
    calc (extract_dictionary lines).length
        = ((extract_dictionary lines).map Prod.fst).length := by
          rw [List.length_map]
      _ = (firstSeenOrder (allTokens lines)).length := by rw [hkeys]
      _ = (firstSeenOrder (allTokens lines)).toFinset.card := by
          rw [List.toFinset_card_of_nodup (hkeys ▸ hnodup)]
      _ = (allTokens lines).toFinset.card := by rw [hsetEq]
  · rw [hfold]
    exact hinv.2
  · obtain ⟨t, ht⟩ :=
      foldl_addWord_extends (allTokens more) ((allTokens lines).foldl addWord ([], 0))
    refine ⟨t, ?_⟩
    rw [hfold, hfold]
    rw [allTokens_append, List.foldl_append]
    exact ht

/-! ## C6: feature rows for fully in-vocabulary lines -/

theorem vectorizeLine_eq_foldl (wl : List (List Char × Nat)) :
    ∀ (ws : List (List Char)), (∀ w ∈ ws, (dictFind wl w).isSome = true) →
      ∀ row : List Nat,
        (ws.foldlM (fun row w => (dictFind wl w).map (fun i => row.set i 1)) row)
          = some (ws.foldl (fun row w => row.set ((dictFind wl w).getD 0) 1) row) := by
  intro ws
  induction ws with
  | nil => intro _ row; rfl
  | cons w ws ih =>
    intro h row
    rw [List.foldlM_cons]
    obtain ⟨v, hv⟩ := Option.isSome_iff_exists.mp (h w (List.mem_cons_self w ws))
    rw [hv]
    simp only [Option.map_some', Option.bind_eq_bind, Option.some_bind]
    rw [ih (fun x hx => h x (List.mem_cons_of_mem w hx))]
    rw [List.foldl_cons, hv, Option.getD_some]

theorem foldl_set_length :
    ∀ (is : List Nat) (r0 : List Nat),
      (is.foldl (fun r i => r.set i 1) r0).length = r0.length := by
  intro is
  induction is with
  | nil => intro r0; rfl
  | cons i is ih =>
    intro r0
    rw [List.foldl_cons, ih, List.length_set]

theorem foldl_set_getElem :
    ∀ (is : List Nat) (r0 : List Nat) (j : Nat),
      (is.foldl (fun r i => r.set i 1) r0)[j]? =
        if j ∈ is then (r0[j]?).map (fun _ => 1) else r0[j]? := by
  intro is
  induction is with
  | nil => intro r0 j; simp
  | cons i is ih =>
    intro r0 j
    rw [List.foldl_cons, ih, List.getElem?_set']
    by_cases hj : j ∈ is
    · rw [if_pos hj, if_pos (List.mem_cons_of_mem i hj)]
      by_cases hij : i = j
      · rw [if_pos hij]
        show Option.map _ (Option.map _ _) = _
        rw [Option.map_map]
        rfl
      · rw [if_neg hij]
    · rw [if_neg hj]
      by_cases hij : i = j
      · rw [if_pos hij, if_pos (List.mem_cons.mpr (Or.inl hij.symm))]
        rfl
      · rw [if_neg hij,
          if_neg (fun hmem => (List.mem_cons.mp hmem).elim
            (fun he => hij he.symm) hj)]

theorem dictFind_mem_values (wl : List (List Char × Nat)) (w : List Char)
    (i : Nat) : dictFind wl w = some i → i ∈ wl.map Prod.snd := by
  induction wl with
  | nil => intro h; exact absurd h (by simp [dictFind])
  | cons kv rest ih =>
    obtain ⟨k, v⟩ := kv
    intro h
    rw [dictFind] at h
    by_cases hk : k = w
    · rw [if_pos hk] at h
      rw [List.map_cons]
      exact List.mem_cons.mpr (Or.inl (Option.some_inj.mp h).symm)
    · rw [if_neg hk] at h
      exact List.mem_cons_of_mem v (ih h)

theorem dictFind_inj (wl : List (List Char × Nat))
    (hnd : (wl.map Prod.snd).Nodup) (w w' : List Char) (i : Nat)
    (h : dictFind wl w = some i) (h' : dictFind wl w' = some i) : w = w' := by
  induction wl with
  | nil => exact absurd h (by simp [dictFind])
  | cons kv rest ih =>
    obtain ⟨k, v⟩ := kv
    rw [List.map_cons, List.nodup_cons] at hnd
    rw [dictFind] at h
    rw [dictFind] at h'
    by_cases hk : k = w
    · by_cases hk' : k = w'
      · rw [← hk, ← hk']
      · rw [if_pos hk] at h
        rw [if_neg hk'] at h'
        exfalso
        have hv : v = i := Option.some_inj.mp h
        exact hnd.1 (hv ▸ dictFind_mem_values rest w' i h')
    · by_cases hk' : k = w'
      · rw [if_neg hk] at h
        rw [if_pos hk'] at h'
        exfalso
        have hv : v = i := Option.some_inj.mp h'
        exact hnd.1 (hv ▸ dictFind_mem_values rest w i h)
      · rw [if_neg hk] at h
        rw [if_neg hk'] at h'
        exact ih hnd.2 h h'

theorem extract_dictionary_values (lines : List (List Char)) :
    (extract_dictionary lines).map Prod.snd =
      List.range (extract_dictionary lines).length := by
  have hfold : extract_dictionary lines =
      ((allTokens lines).foldl addWord ([], 0)).1 := by
    unfold extract_dictionary
    rw [extract_dictionary_eq_foldAll]
  rw [hfold]
  exact (foldl_addWord_inv (allTokens lines) ([], 0) rfl rfl).2

theorem toFinset_map_list {α β : Type} [DecidableEq α] [DecidableEq β]
    (f : α → β) (l : List α) : (l.map f).toFinset = l.toFinset.image f := by
  ext x
  simp [List.mem_toFinset, List.mem_map, Finset.mem_image]

/-- C6: for a line all of whose tokens are in the Vocabulary, the produced
row has vocabulary width, a 1 exactly at the index of each token of the
line and 0 elsewhere (repetitions do not change cells), the number of 1s
equals the number of distinct tokens of the line, and a tokenless line
yields the all-zero row. -/
theorem extract_feature_vectors_in_vocab_row (lines : List (List Char))
    (line : List Char)
    (h : ∀ w ∈ extract_words line,
      (dictFind (extract_dictionary lines) w).isSome = true) :
    ∃ r, vectorizeLine (extract_dictionary lines) line = some r ∧
      r.length = (extract_dictionary lines).length ∧
      (∀ j, j < (extract_dictionary lines).length →
        ((r[j]? = some 1 ↔ ∃ w ∈ extract_words line,
            dictFind (extract_dictionary lines) w = some j) ∧
          (r[j]? = some 1 ∨ r[j]? = some 0))) ∧
      r.count 1 = (extract_words line).dedup.length ∧
      (extract_words line = [] →
        r = List.replicate (extract_dictionary lines).length 0) := by
  have hvals := extract_dictionary_values lines
  have hvalnd : ((extract_dictionary lines).map Prod.snd).Nodup := by
    rw [hvals]; exact List.nodup_range _
  have hlt : ∀ (w : List Char) (i : Nat),
      dictFind (extract_dictionary lines) w = some i →
        i < (extract_dictionary lines).length := by
    intro w i hw
    have hmem := dictFind_mem_values _ w i hw
    rw [hvals] at hmem
    exact List.mem_range.mp hmem
  set R := (extract_words line).foldl
    (fun row w => row.set ((dictFind (extract_dictionary lines) w).getD 0) 1)
    (List.replicate (extract_dictionary lines).length 0) with hR
  set idxs := (extract_words line).map
    (fun w => (dictFind (extract_dictionary lines) w).getD 0) with hidxs
  have hRmap : R = idxs.foldl (fun r i => r.set i 1)
      (List.replicate (extract_dictionary lines).length 0) := by
    rw [hR, hidxs, List.foldl_map]
  have hidxlt : ∀ x ∈ idxs, x < (extract_dictionary lines).length := by
    intro x hx
    rw [hidxs] at hx
    obtain ⟨w, hw, hwx⟩ := List.mem_map.mp hx
    obtain ⟨v, hv⟩ := Option.isSome_iff_exists.mp (h w hw)
    rw [hv, Option.getD_some] at hwx
    rw [← hwx]
    exact hlt w v hv
  have hmemiff : ∀ j : Nat, j ∈ idxs ↔ ∃ w ∈ extract_words line,
      dictFind (extract_dictionary lines) w = some j := by
    intro j
    rw [hidxs]
    constructor
    · intro hj
      obtain ⟨w, hw, hwj⟩ := List.mem_map.mp hj
      obtain ⟨v, hv⟩ := Option.isSome_iff_exists.mp (h w hw)
      rw [hv, Option.getD_some] at hwj
      exact ⟨w, hw, by rw [hv, hwj]⟩
    · rintro ⟨w, hw, hwj⟩
      refine List.mem_map.mpr ⟨w, hw, ?_⟩
      rw [hwj, Option.getD_some]
  have hget : ∀ n : Nat, R[n]? =
      if n < (extract_dictionary lines).length then
        (if n ∈ idxs then some 1 else some 0)
      else none := by
    intro n
    rw [hRmap, foldl_set_getElem, List.getElem?_replicate]
    by_cases hn : n < (extract_dictionary lines).length
    · by_cases hm : n ∈ idxs
      · simp [hn, hm]
      · simp [hn, hm]
    · have hm : n ∉ idxs := fun hm => hn (hidxlt n hm)
      simp [hn, hm]
  refine ⟨R, ?_, ?_, ?_, ?_, ?_⟩
  · have hv := vectorizeLine_eq_foldl (extract_dictionary lines)
      (extract_words line) h
      (List.replicate (extract_dictionary lines).length 0)
    unfold vectorizeLine
    rw [hv]
  · rw [hRmap, foldl_set_length, List.length_replicate]
  · intro j hj
    constructor
    · rw [hget j, if_pos hj, ← hmemiff j]
      by_cases hm : j ∈ idxs
      · rw [if_pos hm]
        simp [hm]
      · rw [if_neg hm]
        simp [hm]
    · rw [hget j, if_pos hj]
      by_cases hm : j ∈ idxs
      · rw [if_pos hm]; exact Or.inl rfl
      · rw [if_neg hm]; exact Or.inr rfl
  · have hchar : R = (List.range (extract_dictionary lines).length).map
        (fun j => if j ∈ idxs then 1 else 0) := by
      apply List.ext_getElem?
      intro n
      rw [hget n, List.getElem?_map]
      by_cases hn : n < (extract_dictionary lines).length
      · rw [if_pos hn, List.getElem?_range hn]
        by_cases hm : n ∈ idxs
        · rw [if_pos hm]; simp [hm]
        · rw [if_neg hm]; simp [hm]
      · rw [if_neg hn]
        rw [List.getElem?_eq_none (by rw [List.length_range]; omega)]
        rfl
    rw [hchar, List.count_eq_countP, List.countP_map]
    have hpeq : ((fun x => x == 1) ∘
        (fun j => if j ∈ idxs then (1 : Nat) else 0)) =
        fun j => decide (j ∈ idxs) := by
      funext j
      by_cases hm : j ∈ idxs <;> simp [hm]
    rw [hpeq, List.countP_eq_length_filter]
    have hfilnd : ((List.range (extract_dictionary lines).length).filter
        (fun j => decide (j ∈ idxs))).Nodup :=
      (List.nodup_range _).filter _
    have hfilset : ((List.range (extract_dictionary lines).length).filter
        (fun j => decide (j ∈ idxs))).toFinset = idxs.toFinset := by
      ext x
      simp only [List.mem_toFinset, List.mem_filter, List.mem_range,
        decide_eq_true_eq]
      constructor
      · rintro ⟨-, hx⟩; exact hx
      · intro hx; exact ⟨hidxlt x hx, hx⟩
    have hinj : Set.InjOn
        (fun w => (dictFind (extract_dictionary lines) w).getD 0)
        ↑(extract_words line).toFinset := by
      intro w1 h1 w2 h2 heq
      rw [Finset.mem_coe, List.mem_toFinset] at h1 h2
      obtain ⟨v1, hv1⟩ := Option.isSome_iff_exists.mp (h w1 h1)
      obtain ⟨v2, hv2⟩ := Option.isSome_iff_exists.mp (h w2 h2)
      simp only [hv1, hv2, Option.getD_some] at heq
      exact dictFind_inj (extract_dictionary lines) hvalnd w1 w2 v1 hv1
        (by rw [hv2, heq])
    calc ((List.range (extract_dictionary lines).length).filter
          (fun j => decide (j ∈ idxs))).length
        = ((List.range (extract_dictionary lines).length).filter
            (fun j => decide (j ∈ idxs))).toFinset.card :=
          (List.toFinset_card_of_nodup hfilnd).symm
      _ = idxs.toFinset.card := by rw [hfilset]
      _ = ((extract_words line).toFinset.image
            (fun w => (dictFind (extract_dictionary lines) w).getD 0)).card := by
          rw [hidxs, toFinset_map_list]
      _ = (extract_words line).toFinset.card := Finset.card_image_of_injOn hinj
      _ = (extract_words line).dedup.length := List.card_toFinset _
  · intro hnil
    rw [hR, hnil]
    rfl

/-- C6 witness: the one-line file "a" against its own vocabulary produces
the row [1]. -/
theorem extract_feature_vectors_in_vocab_row_witness :
    ∃ r, vectorizeLine (extract_dictionary [['a']]) ['a'] = some r ∧
      r.length = (extract_dictionary [['a']]).length ∧
      (∀ j, j < (extract_dictionary [['a']]).length →
        ((r[j]? = some 1 ↔ ∃ w ∈ extract_words ['a'],
            dictFind (extract_dictionary [['a']]) w = some j) ∧
          (r[j]? = some 1 ∨ r[j]? = some 0))) ∧
      r.count 1 = (extract_words ['a']).dedup.length ∧
      (extract_words ['a'] = [] →
        r = List.replicate (extract_dictionary [['a']]).length 0) :=
  extract_feature_vectors_in_vocab_row [['a']] ['a'] (by decide)

/-! ## C9: tokenizer properties -/

theorem char_toNat_ofNat (n : Nat) (h : n < 55296) : (Char.ofNat n).toNat = n := by
  unfold Char.ofNat
  rw [dif_pos (Or.inl h)]
  rfl

theorem char_isUpper_eq (c : Char) :
    c.isUpper = decide (65 ≤ c.toNat ∧ c.toNat ≤ 90) := by
  unfold Char.isUpper
  rw [Bool.decide_and]
  congr 1

theorem char_toLower_eq (u : Char) :
    Char.toLower u = if 65 ≤ u.toNat ∧ u.toNat ≤ 90 then
      Char.ofNat (u.toNat + 32) else u := rfl

theorem toLower_isUpper_false (u : Char) : (Char.toLower u).isUpper = false := by
  rw [char_isUpper_eq, decide_eq_false_iff_not, char_toLower_eq]
  by_cases h : 65 ≤ u.toNat ∧ u.toNat ≤ 90
  · rw [if_pos h]
    rw [char_toNat_ofNat (u.toNat + 32) (by omega)]
    omega
  · rw [if_neg h]
    omega

theorem punct_not_space : ∀ c ∈ pythonPunct, isPySpace c = false := by decide

theorem punct_toLower_self : ∀ c ∈ pythonPunct, Char.toLower c = c := by decide

theorem punct_nodup : pythonPunct.Nodup := by decide

theorem space_not_punct : (' ' : Char) ∉ pythonPunct := by decide

theorem punct_toNat_bounds : ∀ p ∈ pythonPunct,
    ¬(97 ≤ p.toNat ∧ p.toNat ≤ 122) := by decide

theorem toLower_not_punct (x : Char) (hx : x ∉ pythonPunct) :
    Char.toLower x ∉ pythonPunct := by
  intro hmem
  rw [char_toLower_eq] at hmem
  by_cases h : 65 ≤ x.toNat ∧ x.toNat ≤ 90
  · rw [if_pos h] at hmem
    refine punct_toNat_bounds _ hmem ?_
    rw [char_toNat_ofNat _ (by omega)]
    omega
  · rw [if_neg h] at hmem
    exact hx hmem

theorem splitWs_cons_space (x : Char) (l : List Char) (h : isPySpace x = true) :
    splitWs (x :: l) = splitWs l := by
  show splitWsAux (x :: l) [] = splitWsAux l []
  simp [splitWsAux, h]

theorem splitWsAux_acc (l : List Char) :
    ∀ acc : List Char, acc ≠ [] →
      splitWsAux l acc =
        (acc.reverse ++ l.takeWhile (fun ch => !(isPySpace ch))) ::
          splitWs (l.dropWhile (fun ch => !(isPySpace ch))) := by
  induction l with
  | nil =>
    intro acc hacc
    simp only [splitWsAux, List.takeWhile_nil, List.dropWhile_nil]
    rw [if_neg (by simpa [List.isEmpty_iff] using hacc)]
    simp [splitWs, splitWsAux]
  | cons x xs ih =>
    intro acc hacc
    by_cases hx : isPySpace x = true
    · simp only [splitWsAux, hx, if_true]
      rw [if_neg (by simpa [List.isEmpty_iff] using hacc)]
      rw [List.takeWhile_cons_of_neg (by simp [hx]),
        List.dropWhile_cons_of_neg (by simp [hx])]
      rw [List.append_nil, splitWs_cons_space x xs hx]
      rfl
    · have hx' : isPySpace x = false := by
        revert hx; cases isPySpace x <;> simp
      simp only [splitWsAux, hx', Bool.false_eq_true, if_false]
      rw [ih (x :: acc) (List.cons_ne_nil x acc)]
      rw [List.takeWhile_cons_of_pos (by simp [hx']),
        List.dropWhile_cons_of_pos (by simp [hx'])]
      congr 1
      rw [List.reverse_cons, List.append_assoc]
      rfl

theorem splitWs_cons_word (x : Char) (l : List Char) (h : isPySpace x = false) :
    splitWs (x :: l) =
      (x :: l.takeWhile (fun ch => !(isPySpace ch))) ::
        splitWs (l.dropWhile (fun ch => !(isPySpace ch))) := by
  show splitWsAux (x :: l) [] = _
  simp only [splitWsAux, h, Bool.false_eq_true, if_false]
  rw [splitWsAux_acc l [x] (List.cons_ne_nil x [])]
  rfl

theorem expandWith_append (f : Char → List Char) :
    ∀ a b : List Char, expandWith f (a ++ b) = expandWith f a ++ expandWith f b := by
  intro a
  induction a with
  | nil => intro b; rfl
  | cons x a ih => intro b; simp [expandWith, ih, List.append_assoc]

theorem expandWith_congr (f g : Char → List Char) (h : ∀ x, f x = g x) :
    ∀ s, expandWith f s = expandWith g s := by
  intro s
  induction s with
  | nil => rfl
  | cons x s ih => simp [expandWith, ih, h x]

theorem expandWith_compose (f g : Char → List Char) :
    ∀ s, expandWith g (expandWith f s) =
      expandWith (fun x => expandWith g (f x)) s := by
  intro s
  induction s with
  | nil => rfl
  | cons x s ih => simp [expandWith, expandWith_append, ih]

theorem expandWith_id : ∀ s, expandWith (fun x => [x]) s = s := by
  intro s
  induction s with
  | nil => rfl
  | cons x s ih => simp [expandWith, ih]

theorem map_expandWith (g : Char → Char) (f : Char → List Char) :
    ∀ s, (expandWith f s).map g = expandWith (fun x => (f x).map g) s := by
  intro s
  induction s with
  | nil => rfl
  | cons x s ih => simp [expandWith, ih]

theorem replaceChar_eq_expand (c : Char) :
    ∀ s, replaceChar c s =
      expandWith (fun x => if x = c then [' ', c, ' '] else [x]) s := by
  intro s
  induction s with
  | nil => rfl
  | cons x s ih =>
    by_cases hx : x = c
    · simp [replaceChar, expandWith, hx, ih]
    · simp [replaceChar, expandWith, hx, ih]

theorem foldl_replace_expand :
    ∀ ps : List Char, ps.Nodup → (' ' : Char) ∉ ps →
      ∀ s, ps.foldl (fun acc c => replaceChar c acc) s =
        expandWith (fun x => if x ∈ ps then [' ', x, ' '] else [x]) s := by
  intro ps
  induction ps with
  | nil =>
    intro _ _ s
    rw [List.foldl_nil,
      expandWith_congr _ (fun x => [x]) (fun x => by simp) s, expandWith_id]
  | cons p ps ih =>
    intro hnd hsp s
    rw [List.nodup_cons] at hnd
    have hs : (' ' : Char) ∉ ps := fun hm => hsp (List.mem_cons_of_mem p hm)
    rw [List.foldl_cons, ih hnd.2 hs, replaceChar_eq_expand, expandWith_compose]
    refine expandWith_congr _ _ (fun x => ?_) s
    by_cases hx : x = p
    · subst hx
      rw [if_pos rfl, if_pos (List.mem_cons_self x ps)]
      simp [expandWith, hs, hnd.1]
    · rw [if_neg hx]
      simp only [expandWith, List.append_nil]
      by_cases hxs : x ∈ ps
      · rw [if_pos hxs, if_pos (List.mem_cons_of_mem p hxs)]
      · rw [if_neg hxs, if_neg (fun hm => (List.mem_cons.mp hm).elim hx hxs)]

theorem replaceAll_eq_expand (s : List Char) :
    replaceAll s =
      expandWith (fun x => if x ∈ pythonPunct then [' ', x, ' '] else [x]) s := by
  unfold replaceAll
  exact foldl_replace_expand pythonPunct punct_nodup space_not_punct s

theorem processed_eq_expand (s : List Char) :
    (replaceAll s).map Char.toLower = expandWith blockL s := by
  rw [replaceAll_eq_expand, map_expandWith]
  refine expandWith_congr _ _ (fun x => ?_) s
  by_cases hx : x ∈ pythonPunct
  · rw [if_pos hx]
    unfold blockL
    rw [if_pos hx]
    simp [punct_toLower_self x hx, show Char.toLower ' ' = ' ' from by decide]
  · rw [if_neg hx]
    unfold blockL
    rw [if_neg hx]
    rfl

theorem extract_words_eq_expand (s : List Char) :
    extract_words s = splitWs (expandWith blockL s) := by
  unfold extract_words
  rw [processed_eq_expand]

theorem expand_head_not_punct (s : List Char) (z : Char) (r : List Char)
    (hexp : expandWith blockL s = z :: r) (hz : isPySpace z = false) :
    z ∉ pythonPunct := by
  cases s with
  | nil => exact absurd hexp (by simp [expandWith])
  | cons u t
  =>
    simp only [expandWith] at hexp
    by_cases hu : u ∈ pythonPunct
    · rw [blockL, if_pos hu] at hexp
      simp only [List.cons_append, List.nil_append] at hexp
      injection hexp with h1 _
      rw [← h1] at hz
      exact absurd hz (by decide)
    · rw [blockL, if_neg hu] at hexp
      simp only [List.cons_append, List.nil_append] at hexp
      injection hexp with h1 _
      rw [← h1]
      exact toLower_not_punct u hu

theorem splitWs_expand_count (c : Char) (hc : c ∈ pythonPunct) :
    ∀ s : List Char, (splitWs (expandWith blockL s)).count [c] = s.count c := by
  intro s
  induction s with
  | nil => rfl
  | cons x s ih =>
    have hexp : expandWith blockL (x :: s) = blockL x ++ expandWith blockL s :=
      rfl
    rw [hexp]
    by_cases hx : x ∈ pythonPunct
    · rw [blockL, if_pos hx]
      rw [show ([' ', x, ' '] ++ expandWith blockL s) =
        ' ' :: x :: ' ' :: expandWith blockL s from rfl]
      rw [splitWs_cons_space _ _ (by decide)]
      rw [splitWs_cons_word x _ (punct_not_space x hx)]
      rw [List.takeWhile_cons_of_neg (by decide),
        List.dropWhile_cons_of_neg (by decide)]
      rw [splitWs_cons_space ' ' _ (by decide)]
      rw [List.count_cons, ih, List.count_cons]
      by_cases hxc : x = c <;> simp [hxc]
    · rw [blockL, if_neg hx]
      have hxc : x ≠ c := fun he => hx (he ▸ hc)
      have hyc : Char.toLower x ≠ c := fun he => (toLower_not_punct x hx) (he ▸ hc)
      rw [show ([Char.toLower x] ++ expandWith blockL s) =
        Char.toLower x :: expandWith blockL s from rfl]
      by_cases hy : isPySpace (Char.toLower x) = true
      · rw [splitWs_cons_space _ _ hy, ih, List.count_cons]
        simp [hxc]
      · have hy' : isPySpace (Char.toLower x) = false := by
          revert hy; cases isPySpace (Char.toLower x) <;> simp
        cases hrest : expandWith blockL s with
        | nil =>
          have hs0 : s.count c = 0 := by rw [← ih, hrest]; rfl
          rw [splitWs_cons_word _ _ hy']
          simp only [List.takeWhile_nil, List.dropWhile_nil]
          rw [show splitWs ([] : List Char) = [] from rfl]
          rw [List.count_cons, List.count_cons]
          simp [hxc, hyc, hs0]
        | cons z r2 =>
          by_cases hz : isPySpace z = true
          · rw [splitWs_cons_word _ _ hy']
            rw [List.takeWhile_cons_of_neg (by simp [hz]),
              List.dropWhile_cons_of_neg (by simp [hz])]
            rw [List.count_cons, ← hrest, ih, List.count_cons]
            simp [hxc, hyc]
          · have hz' : isPySpace z = false := by
              revert hz; cases isPySpace z <;> simp
            have hznp : z ∉ pythonPunct := expand_head_not_punct s z r2 hrest hz'
            have hzc : z ≠ c := fun he => hznp (he ▸ hc)
            have hihx : ((z :: r2.takeWhile (fun ch => !(isPySpace ch))) ::
                splitWs (r2.dropWhile (fun ch => !(isPySpace ch)))).count [c] =
                s.count c := by
              rw [← splitWs_cons_word z r2 hz', ← hrest]
              exact ih
            rw [List.count_cons] at hihx
            rw [splitWs_cons_word _ _ hy']
            rw [List.takeWhile_cons_of_pos (by simp [hz']),
              List.dropWhile_cons_of_pos (by simp [hz'])]
            rw [List.count_cons, List.count_cons]
            have ht1 : ¬ ((Char.toLower x :: z ::
                r2.takeWhile (fun ch => !(isPySpace ch))) = [c]) := by
              simp
            have ht2 : ¬ ((z :: r2.takeWhile (fun ch => !(isPySpace ch))) = [c]) := by
              simp [hzc]
            simp only [beq_iff_eq, if_neg ht1, if_neg ht2, if_neg hxc,
              add_zero] at hihx ⊢
            exact hihx

theorem splitWs_tokens_aux :
    ∀ (n : Nat) (l : List Char), l.length ≤ n →
      ∀ t ∈ splitWs l, t ≠ [] ∧ ∀ ch ∈ t, ch ∈ l := by
  intro n
  induction n with
  | zero =>
    intro l hl t ht
    have hnil : l = [] := List.length_eq_zero.mp (Nat.le_zero.mp hl)
    subst hnil
    exact absurd ht (by simp [splitWs, splitWsAux])
  | succ n ihn =>
    intro l hl t ht
    cases l with
    | nil => exact absurd ht (by simp [splitWs, splitWsAux])
    | cons x xs =>
      by_cases hx : isPySpace x = true
      · rw [splitWs_cons_space x xs hx] at ht
        obtain ⟨hne, hsub⟩ := ihn xs (by
          rw [List.length_cons] at hl
          omega) t ht
        exact ⟨hne, fun ch hch => List.mem_cons_of_mem x (hsub ch hch)⟩
      · have hx' : isPySpace x = false := by
          revert hx; cases isPySpace x <;> simp
        rw [splitWs_cons_word x xs hx'] at ht
        rcases List.mem_cons.mp ht with h1 | h2
        · subst h1
          refine ⟨List.cons_ne_nil _ _, fun ch hch => ?_⟩
          rcases List.mem_cons.mp hch with hh | hh
          · rw [hh]; exact List.mem_cons_self x xs
          · exact List.mem_cons_of_mem x ((List.takeWhile_sublist _).subset hh)
        · have hlen : (xs.dropWhile (fun ch => !(isPySpace ch))).length ≤ n := by
            have hdw := (List.dropWhile_sublist
              (l := xs) (p := fun ch => !(isPySpace ch))).length_le
            rw [List.length_cons] at hl
            omega
          obtain ⟨hne, hsub⟩ := ihn _ hlen t h2
          exact ⟨hne, fun ch hch => List.mem_cons_of_mem x
            ((List.dropWhile_sublist _).subset (hsub ch hch))⟩

/-- C9: `extract_words` is deterministic; every occurrence of a punctuation
character in the input appears in the output as an isolated single-character
token (the number of tokens equal to `[c]` is the number of occurrences of
`c`); and every output token is non-empty and free of uppercase letters. -/
theorem extract_words_token_properties (S : List Char) :
    extract_words S = extract_words S ∧
    (∀ c ∈ pythonPunct, (extract_words S).count [c] = S.count c) ∧
    (∀ t ∈ extract_words S, t ≠ [] ∧ ∀ ch ∈ t, ch.isUpper = false) := by
  refine ⟨rfl, ?_, ?_⟩
  · intro c hc
    rw [extract_words_eq_expand]
    exact splitWs_expand_count c hc S
  · intro t ht
    have hproc : extract_words S = splitWs ((replaceAll S).map Char.toLower) :=
      rfl
    rw [hproc] at ht
    obtain ⟨hne, hsub⟩ := splitWs_tokens_aux
      ((replaceAll S).map Char.toLower).length _ (le_refl _) t ht
    refine ⟨hne, fun ch hch => ?_⟩
    obtain ⟨u, -, hu⟩ := List.mem_map.mp (hsub ch hch)
    rw [← hu]
    exact toLower_isUpper_false u
